import Mathlib

/-!
Shallow embedding of the neoray event-to-grid core and renderer helpers.

Each definition mirrors a function of the Go sources (file and symbol noted
in its doc comment).  Parts of the repository that the claims depend on but
whose source files are absent (grid, cursor, highlight table, event
dispatch) are modelled from the specification; those definitions say so
explicitly in their doc comments.

Machine integers are embedded as `Nat`/`Int` with explicit `% 2^w` where
overflow matters; `float32` quantities are embedded as exact rationals.
-/

namespace Neoray

/-! ## Colors (src/cmd/neoray/utils.go) -/

/-- Embedding of Go's `sdl.Color`: four 8-bit channels, kept as `Nat`
(the Go values are `uint8`, hence always `< 256`). -/
structure SdlColor where
  r : Nat
  g : Nat
  b : Nat
  a : Nat
deriving DecidableEq, Repr

/-- `convert_rgb24_to_rgba` (utils.go:19-29).  `(color >> k) & 0xff` is
embedded as `color / 2^k % 2^8`. -/
def convert_rgb24_to_rgba (color : Nat) : SdlColor :=
  { r := color / 2 ^ 16 % 2 ^ 8
    g := color / 2 ^ 8 % 2 ^ 8
    b := color % 2 ^ 8
    a := 255 }

/-- `convert_rgba_to_rgb24` (utils.go:31-40).  Since the channels are
8-bit values, `(x << 8) | y` equals `x * 2^8 + y`. -/
def convert_rgba_to_rgb24 (color : SdlColor) : Nat :=
  (color.r * 2 ^ 8 + color.g) * 2 ^ 8 + color.b

/-! ## Rectangle triangulation (src/cmd/neoray/utils.go) -/

/-- Embedding of `sdl.Rect` (int32 fields, embedded as `Int`). -/
structure SdlRect where
  x : Int
  y : Int
  w : Int
  h : Int
deriving DecidableEq, Repr

/-- An integer point, as produced for the vertex stream. -/
structure IVec2 where
  x : Int
  y : Int
deriving DecidableEq, Repr

/-- `triangulate_rect` (utils.go:84-93): the six vertices of the two
triangles covering the rectangle, in source order. -/
def triangulate_rect (rect : SdlRect) : List IVec2 :=
  [ ⟨rect.x, rect.y⟩
  , ⟨rect.x, rect.y + rect.h⟩
  , ⟨rect.x + rect.w, rect.y + rect.h⟩
  , ⟨rect.x + rect.w, rect.y + rect.h⟩
  , ⟨rect.x + rect.w, rect.y⟩
  , ⟨rect.x, rect.y⟩ ]

/-- The closed triangle spanned by three points, as the set of convex
combinations of its vertices (over `ℚ` so that arbitrary interior points
are expressible). -/
def inTriangle (A B C : ℚ × ℚ) (p : ℚ × ℚ) : Prop :=
  ∃ α β γ : ℚ, 0 ≤ α ∧ 0 ≤ β ∧ 0 ≤ γ ∧ α + β + γ = 1 ∧
    p.1 = α * A.1 + β * B.1 + γ * C.1 ∧
    p.2 = α * A.2 + β * B.2 + γ * C.2

/-- Membership in the closed rectangle `[X, X+W] × [Y, Y+H]`. -/
def inRect (rect : SdlRect) (p : ℚ × ℚ) : Prop :=
  (rect.x : ℚ) ≤ p.1 ∧ p.1 ≤ (rect.x : ℚ) + rect.w ∧
  (rect.y : ℚ) ≤ p.2 ∧ p.2 ≤ (rect.y : ℚ) + rect.h

/-- View an integer point as a rational one. -/
def IVec2.toQ (v : IVec2) : ℚ × ℚ := ((v.x : ℚ), (v.y : ℚ))

/-! ## `RGL_Render` buffer policy (src/cmd/neoray/renderer_gl.go) -/

/-- Initial value of the package-level `var rgl_last_buffer_size int`
(renderer_gl.go:34); Go zero-initializes it to 0, and no statement in the
sources ever assigns to it. -/
def rgl_initial_buffer_size : Nat := 0

/-- One call of `RGL_Render` (renderer_gl.go:136-148) as a function of the
current `rgl_last_buffer_size` and `len(vertex_data)`.  Returns whether the
`BufferData` (full reallocation) branch was taken, and the value of
`rgl_last_buffer_size` afterwards — the function reads the variable but
never writes it, so the state is returned unchanged. -/
def RGL_Render (last_buffer_size : Nat) (vertex_count : Nat) : Bool × Nat :=
  if last_buffer_size ≠ vertex_count then
    (true, last_buffer_size)   -- gl.BufferData branch
  else
    (false, last_buffer_size)  -- gl.BufferSubData branch

/-- Run a sequence of frames through `RGL_Render`, collecting which branch
each frame took. -/
def RGL_RenderFrames (last_buffer_size : Nat) : List Nat → List Bool
  | [] => []
  | n :: rest =>
      let r := RGL_Render last_buffer_size n
      r.1 :: RGL_RenderFrames r.2 rest

/-! ## `requestOptions` (src/cmd/neoray/nvimproc.go:117-134) and editor
defaults (editor source, `initDefaults`) -/

/-- `DEFAULT_TRANSPARENCY` (editor source). -/
def DEFAULT_TRANSPARENCY : ℚ := 1

/-- `DEFAULT_TARGET_TPS` (editor source). -/
def DEFAULT_TARGET_TPS : Int := 60

/-- The editor fields touched by `requestOptions`; `float32` fields are
embedded as `ℚ`. -/
structure EditorOptions where
  cursorAnimLifetime : ℚ
  framebufferTransparency : ℚ
  targetTPS : Int
deriving DecidableEq, Repr

/-- `Editor.initDefaults` (editor source): sets the transparency and
target-TPS defaults. -/
def initDefaults (e : EditorOptions) : EditorOptions :=
  { e with framebufferTransparency := DEFAULT_TRANSPARENCY,
           targetTPS := DEFAULT_TARGET_TPS }

/-- `NvimProcess.requestOptions` (nvimproc.go:117-134).  A variable fetch
that failed (`err != nil`, i.e. the variable is absent) is embedded as
`none`.  The animation lifetime is applied unconditionally when present;
transparency only when in `[0, 1]`; target TPS only when strictly
positive. -/
def requestOptions (animVar transparencyVar : Option ℚ) (tpsVar : Option Int)
    (e : EditorOptions) : EditorOptions :=
  let e1 := match animVar with
    | some v => { e with cursorAnimLifetime := v }
    | none => e
  let e2 := match transparencyVar with
    | some v => if 0 ≤ v ∧ v ≤ 1 then { e1 with framebufferTransparency := v } else e1
    | none => e1
  match tpsVar with
    | some v => if 0 < v then { e2 with targetTPS := v } else e2
    | none => e2

/-! ## Grid model

The grid and event-application sources (`grid.go` and the redraw-event
dispatch) are not present under the repository snapshot; the following
definitions are modelled from the specification (§3 data model, §4.2
event semantics). -/

/-- Modelled from the spec: a `Cell` of `grid.go` holds a character
(`0` = empty) and a highlight id; resolved colors are never cached on the
cell (spec §3). -/
structure Cell where
  char : Nat
  hlId : Nat
deriving DecidableEq, Repr

/-- Modelled from the spec: the empty cell with the default highlight
id 0 (spec §4.2 `grid-clear`, `grid-scroll` vacated rows). -/
def Cell.empty : Cell := ⟨0, 0⟩

/-- Modelled from the spec: the `Grid` of `grid.go` — a row-major cell
array of length `rows * cols` plus a per-row dirty flag (spec §3). -/
structure Grid where
  rows : Nat
  cols : Nat
  cells : List Cell
  dirty : Nat → Bool

/-- `rows*cols == len(cells)` (spec §3 Grid invariant). -/
def Grid.WellFormed (g : Grid) : Prop :=
  g.cells.length = g.rows * g.cols

/-- Cell lookup at `(row, col)`, row-major. -/
def Grid.cellAt (g : Grid) (r c : Nat) : Cell :=
  g.cells.getD (r * g.cols + c) Cell.empty

/-- Modelled from the spec: write one cell and mark its row dirty
(spec §4.2 `grid-line`: "every written cell is marked dirty"). -/
def Grid.setCell (g : Grid) (r c : Nat) (v : Cell) : Grid :=
  { g with cells := g.cells.set (r * g.cols + c) v,
           dirty := fun r' => if r' = r then true else g.dirty r' }

/-- A single pending cell write: row, column, value. -/
structure Write where
  row : Nat
  col : Nat
  val : Cell
deriving DecidableEq, Repr

/-- Apply a list of writes in order. -/
def Grid.applyWrites (g : Grid) : List Write → Grid
  | [] => g
  | w :: rest => (g.setCell w.row w.col w.val).applyWrites rest

/-- Modelled from the spec: one entry of a `grid-line` event's cell list —
`(text, highlightId?, repeatCount?)` (spec §4.2). -/
structure GridLineEntry where
  text : Nat
  hlId : Option Nat
  repeatCount : Option Nat
deriving DecidableEq, Repr

/-- Modelled from the spec: run-length decoding of a `grid-line` cell
list — an entry that omits `highlightId` or `repeatCount` reuses the
previous entry's value (spec §4.2); the initial values are highlight 0
and repeat 1. -/
def expandEntries (lastHl lastRepeat : Nat) : List GridLineEntry → List Cell
  | [] => []
  | e :: rest =>
      let hl := e.hlId.getD lastHl
      let rep := e.repeatCount.getD lastRepeat
      List.replicate rep ⟨e.text, hl⟩ ++ expandEntries hl rep rest

/-- Modelled from the spec: the writes a decoded run performs starting at
`col` — consecutive columns, stopping at `cols` (spec §4.2: "Writing must
stop at `cols`"). -/
def runWrites (cols row : Nat) : Nat → List Cell → List Write
  | _, [] => []
  | col, v :: rest =>
      if col < cols then ⟨row, col, v⟩ :: runWrites cols row (col + 1) rest
      else []

/-- Modelled from the spec: the writes of one `grid-line(row, startCol,
entries)` event against a grid of the given dimensions; an out-of-range
row is skipped entirely (spec §7: out-of-range events are skipped, never
out-of-bounds). -/
def gridLineWrites (rows cols row startCol : Nat)
    (entries : List GridLineEntry) : List Write :=
  if row < rows then runWrites cols row startCol (expandEntries 0 1 entries)
  else []

/-- Modelled from the spec: apply one `grid-line` event (spec §4.2). -/
def Grid.applyGridLine (g : Grid) (row startCol : Nat)
    (entries : List GridLineEntry) : Grid :=
  g.applyWrites (gridLineWrites g.rows g.cols row startCol entries)

/-- A `grid-line` event: row, start column and run-length-encoded cells
(spec §4.2). -/
structure GridLineEvent where
  row : Nat
  startCol : Nat
  entries : List GridLineEntry
deriving DecidableEq, Repr

/-- Apply a sequence of `grid-line` events in order. -/
def Grid.applyGridLines (g : Grid) : List GridLineEvent → Grid
  | [] => g
  | ev :: rest => (g.applyGridLine ev.row ev.startCol ev.entries).applyGridLines rest

/-- The writes a sequence of `grid-line` events performs, in order. -/
def gridLinesWrites (rows cols : Nat) : List GridLineEvent → List Write
  | [] => []
  | ev :: rest =>
      gridLineWrites rows cols ev.row ev.startCol ev.entries ++
        gridLinesWrites rows cols rest

/-- The value of the last write a write sequence makes to position
`(r, c)`, if any. -/
def lastWriteTo (ws : List Write) (r c : Nat) : Option Cell :=
  ws.foldl (fun acc w => if w.row = r ∧ w.col = c then some w.val else acc) none

/-- Modelled from the spec: a `grid-line` event lies within the grid
bounds when its row exists and its decoded run ends at or before the
column count (claim wording; spec §4.2). -/
def GridLineEvent.InBounds (ev : GridLineEvent) (rows cols : Nat) : Prop :=
  ev.row < rows ∧ ev.startCol + (expandEntries 0 1 ev.entries).length ≤ cols

/-- Modelled from the spec: the new content of position `(r, c)` after a
`grid-scroll(top, bottom, left, right, rowDelta)` — inside the region the
row `r + rowDelta` is copied in when it lies in the region, vacated rows
are cleared to default-highlight empty cells, outside the region nothing
changes (spec §4.2 `grid-scroll`). -/
def scrolledCell (top bot left right : Nat) (d : Int) (g : Grid)
    (r c : Nat) : Cell :=
  if top ≤ r ∧ r < bot ∧ left ≤ c ∧ c < right then
    let src : Int := (r : Int) + d
    if (top : Int) ≤ src ∧ src < (bot : Int) then g.cellAt src.toNat c
    else Cell.empty
  else g.cellAt r c

/-- Modelled from the spec: `grid-scroll` — shifts the region
`[top,bottom)×[left,right)` vertically by `rowDelta` and marks the whole
region dirty (spec §4.2). -/
def Grid.scroll (g : Grid) (top bot left right : Nat) (d : Int) : Grid :=
  { g with
    cells := (List.range (g.rows * g.cols)).map
      (fun i => scrolledCell top bot left right d g (i / g.cols) (i % g.cols)),
    dirty := fun r => if top ≤ r ∧ r < bot then true else g.dirty r }

/-- Modelled from the spec: `grid-clear` — every cell becomes empty with
the default highlight id and every row is dirty (spec §4.2). -/
def Grid.clear (g : Grid) : Grid :=
  { g with cells := List.replicate (g.rows * g.cols) Cell.empty,
           dirty := fun _ => true }

/-! ## Event batches and the producer/tick system (spec §4.2, §5;
producer side: `src/cmd/neoray/nvimproc.go`, `StartUI`) -/

/-- Modelled from the spec: the grid-mutating redraw events of §4.2 as a
closed tagged variant (the dispatch source is not in the snapshot). -/
inductive UIEvent where
  | gridLine (row startCol : Nat) (entries : List GridLineEntry)
  | gridScroll (top bot left right : Nat) (rowDelta : Int)
  | gridClear

/-- Modelled from the spec: apply one event to the grid (spec §4.2). -/
def Grid.applyEvent (g : Grid) : UIEvent → Grid
  | .gridLine row startCol entries => g.applyGridLine row startCol entries
  | .gridScroll top bot left right d => g.scroll top bot left right d
  | .gridClear => g.clear

/-- Apply one batch: events in listed order (spec §4.2). -/
def Grid.applyBatch (g : Grid) (batch : List UIEvent) : Grid :=
  batch.foldl Grid.applyEvent g

/-- Apply a list of batches in order. -/
def applyBatches (g : Grid) (batches : List (List UIEvent)) : Grid :=
  batches.foldl Grid.applyBatch g

/-- The shared state touched by the transport callback and the tick.
`queue` is `NvimProcess.update_stack` (nvimproc.go); `grid` is the applied
editor state; `renders` records the grid snapshot each render pass
observed; `produced` is the ghost history of every batch the transport
delivered. -/
structure SysState where
  queue : List (List UIEvent)
  grid : Grid
  renders : List Grid
  produced : List (List UIEvent)

/-- The `redraw` handler registered in `StartUI` (nvimproc.go:95-100):
under the mutex it only appends the decoded batch to `update_stack` and
returns. -/
def produceStep (s : SysState) (batch : List UIEvent) : SysState :=
  { s with queue := s.queue ++ [batch], produced := s.produced ++ [batch] }

/-- Modelled from the spec: one tick of `Editor.MainLoop` — under the same
mutex, `HandleNvimRedrawEvents` (absent from the snapshot) drains the
whole queue and applies every pending batch, and the render step of the
same tick then observes the resulting grid (spec §5). -/
def tickStep (s : SysState) : SysState :=
  { queue := []
    grid := applyBatches s.grid s.queue
    renders := s.renders ++ [applyBatches s.grid s.queue]
    produced := s.produced }

/-- Interleaving of the two activities: either the transport delivers a
batch or a tick runs.  Each step is atomic, reflecting the single mutex
protecting `update_stack` (spec §5). -/
inductive SysStep : SysState → SysState → Prop where
  | produce (s : SysState) (batch : List UIEvent) : SysStep s (produceStep s batch)
  | tick (s : SysState) : SysStep s (tickStep s)

/-- States reachable from the initial state (empty queue, initial grid,
nothing rendered or produced yet) by any interleaving. -/
inductive SysReachable (g0 : Grid) : SysState → Prop where
  | init : SysReachable g0 ⟨[], g0, [], []⟩
  | step {s s' : SysState} : SysReachable g0 s → SysStep s s' → SysReachable g0 s'

/-- A concrete 4×3 grid with pairwise distinct cells, used by witnesses. -/
def sampleGrid : Grid :=
  ⟨4, 3, (List.range 12).map (fun i => ⟨i + 1, i⟩), fun _ => false⟩

/-- A concrete one-event batch, used by witnesses. -/
def sampleBatch : List UIEvent := [UIEvent.gridClear]

/-- A concrete `grid-line` event writing "Hi" into row 1 (the scenario of
spec §8), used by witnesses; the second entry omits both optional fields
and reuses the previous entry's highlight and repeat count. -/
def gridLineSampleEvent : GridLineEvent :=
  ⟨1, 0, [⟨72, some 1, some 1⟩, ⟨105, none, none⟩]⟩

/-- The initial system state over `sampleGrid`, used by witnesses. -/
def sys0 : SysState := ⟨[], sampleGrid, [], []⟩

/-! ## Highlight table (spec §4.1; source `hl_attr` handling absent) -/

/-- Modelled from the spec: a `HighlightAttribute` — optional RGB colors
plus attribute flags (spec §3). -/
structure HighlightAttribute where
  foreground : Option Nat
  background : Option Nat
  special : Option Nat
  bold : Bool
  italic : Bool
  underline : Bool
  strikethrough : Bool
  reverse : Bool
deriving DecidableEq, Repr

/-- Modelled from the spec: the built-in default foreground color. -/
def BUILTIN_FG : Nat := 0xffffff

/-- Modelled from the spec: the built-in default background color. -/
def BUILTIN_BG : Nat := 0x000000

/-- Modelled from the spec: the attribute entry for id 0 holding the
built-in default colors. -/
def builtinDefaultAttribute : HighlightAttribute :=
  ⟨some BUILTIN_FG, some BUILTIN_BG, none, false, false, false, false, false⟩

/-- Modelled from the spec: the highlight table, a mapping keyed by id
with id 0 always present (spec §3). -/
def HighlightTable := Nat → Option HighlightAttribute

/-- Modelled from the spec: `clear()` resets the table to only id 0 with
the built-in default colors (spec §4.1). -/
def HighlightTable.clear : HighlightTable :=
  fun id => if id = 0 then some builtinDefaultAttribute else none

/-- Modelled from the spec: `define(id, attrs)` inserts or overwrites,
never fails (spec §4.1). -/
def HighlightTable.define (t : HighlightTable) (id : Nat)
    (attrs : HighlightAttribute) : HighlightTable :=
  fun i => if i = id then some attrs else t i

/-- The colors `resolve` produces. -/
structure ResolvedColors where
  foreground : Nat
  background : Nat
  special : Nat
deriving DecidableEq, Repr

/-- Modelled from the spec: `resolve(id)` — an undefined id falls back to
the id-0 entry silently; if `reverse` is set the foreground/background are
swapped before any other processing; unset foreground/background take the
id-0 defaults; `special` defaults to the resolved foreground
(spec §4.1). -/
def HighlightTable.resolve (t : HighlightTable) (id : Nat) : ResolvedColors :=
  let default0 := (t 0).getD builtinDefaultAttribute
  let defaultFg := default0.foreground.getD BUILTIN_FG
  let defaultBg := default0.background.getD BUILTIN_BG
  let attrs := (t id).getD default0
  let fg0 := if attrs.reverse then attrs.background else attrs.foreground
  let bg0 := if attrs.reverse then attrs.foreground else attrs.background
  let fg := fg0.getD defaultFg
  let bg := bg0.getD defaultBg
  { foreground := fg, background := bg, special := attrs.special.getD fg }

/-! ## Cursor animation (spec §4.3; `cursor.go` absent).
`lerpf32` (src/cmd/neoray/utils.go:73-75) is embedded over `ℚ`. -/

/-- `lerpf32` (utils.go:73-75), over exact rationals. -/
def lerpf32 (v0 v1 t : ℚ) : ℚ := v0 + t * (v1 - v0)

/-- Modelled from the spec: the cursor animation state — previous and
target cell positions and the animation progress `animT ∈ [0,1]`
(spec §3, §4.3).  Positions are `(row, col)` pairs over `ℚ`. -/
structure CursorAnim where
  prevPos : ℚ × ℚ
  targetPos : ℚ × ℚ
  animT : ℚ
  animLifetime : ℚ
deriving DecidableEq, Repr

/-- Modelled from the spec: `visualPosition()` interpolates between the
previous and target cell using `animT` (spec §4.3). -/
def CursorAnim.visualPosition (c : CursorAnim) : ℚ × ℚ :=
  ( lerpf32 c.prevPos.1 c.targetPos.1 c.animT
  , lerpf32 c.prevPos.2 c.targetPos.2 c.animT )

/-- Modelled from the spec: `setTarget(row, col)` captures the current
visual position as the new previous position before overwriting the
target, and restarts the animation (spec §4.3). -/
def CursorAnim.setTarget (c : CursorAnim) (p : ℚ × ℚ) : CursorAnim :=
  { c with prevPos := c.visualPosition, targetPos := p, animT := 0 }

/-- Modelled from the spec: `advance(dt)` increases `animT` by
`dt / animDuration` and clamps it to 1 (spec §4.3). -/
def CursorAnim.advance (c : CursorAnim) (dt : ℚ) : CursorAnim :=
  { c with animT := min 1 (c.animT + dt / c.animLifetime) }

/-- A cursor at rest on cell `p`: animation finished. -/
def CursorAnim.atRest (p : ℚ × ℚ) (lifetime : ℚ) : CursorAnim :=
  { prevPos := p, targetPos := p, animT := 1, animLifetime := lifetime }

/-! # Theorems -/

/-- C9: the packed-color conversions are mutually inverse on their
meaningful ranges — `convert_rgba_to_rgb24 ∘ convert_rgb24_to_rgba`
discards the high byte (equals the input modulo `2^24`), and
`convert_rgb24_to_rgba ∘ convert_rgba_to_rgb24` is the identity on colors
with 8-bit channels and `A = 255`. -/
theorem color_conversions_inverse (c : Nat) (col : SdlColor)
    (hr : col.r < 256) (hg : col.g < 256) (hb : col.b < 256) (ha : col.a = 255) :
    convert_rgba_to_rgb24 (convert_rgb24_to_rgba c) = c % 2 ^ 24 ∧
    convert_rgb24_to_rgba (convert_rgba_to_rgb24 col) = col := by
  obtain ⟨r, g, b, a⟩ := col
  simp only [convert_rgba_to_rgb24, convert_rgb24_to_rgba, SdlColor.mk.injEq] at *
  subst ha
  refine ⟨by omega, by omega, by omega, by omega, rfl⟩

/-- Witness for C9 at a concrete color. -/
theorem color_conversions_inverse_witness :
    (0xaa < 256 ∧ 0xbb < 256 ∧ 0xcc < 256 ∧ (255:Nat) = 255) ∧
    (convert_rgba_to_rgb24 (convert_rgb24_to_rgba 0xf1aabbcc) = 0xf1aabbcc % 2 ^ 24 ∧
     convert_rgb24_to_rgba (convert_rgba_to_rgb24 ⟨0xaa, 0xbb, 0xcc, 255⟩) = ⟨0xaa, 0xbb, 0xcc, 255⟩) :=
  ⟨by decide,
   color_conversions_inverse 0xf1aabbcc ⟨0xaa, 0xbb, 0xcc, 255⟩
     (by decide) (by decide) (by decide) (by decide)⟩

/-- C10: `requestOptions` validates the user-supplied option variables:
starting from the defaults, the resulting transparency always lies in
`[0, 1]` and the target TPS is always strictly positive, and an absent or
out-of-range variable leaves the default (1 resp. 60) in place. -/
theorem requestOptions_keeps_invariants
    (animVar transparencyVar : Option ℚ) (tpsVar : Option Int) (e : EditorOptions) :
    (0 ≤ (requestOptions animVar transparencyVar tpsVar (initDefaults e)).framebufferTransparency ∧
     (requestOptions animVar transparencyVar tpsVar (initDefaults e)).framebufferTransparency ≤ 1) ∧
    0 < (requestOptions animVar transparencyVar tpsVar (initDefaults e)).targetTPS ∧
    (∀ v, transparencyVar = some v → ¬(0 ≤ v ∧ v ≤ 1) →
      (requestOptions animVar transparencyVar tpsVar (initDefaults e)).framebufferTransparency = 1) ∧
    (∀ v, tpsVar = some v → ¬(0 < v) →
      (requestOptions animVar transparencyVar tpsVar (initDefaults e)).targetTPS = 60) ∧
    (transparencyVar = none →
      (requestOptions animVar transparencyVar tpsVar (initDefaults e)).framebufferTransparency = 1) ∧
    (tpsVar = none →
      (requestOptions animVar transparencyVar tpsVar (initDefaults e)).targetTPS = 60) := by
  cases animVar <;> cases transparencyVar <;> cases tpsVar <;>
    simp only [requestOptions, initDefaults, DEFAULT_TRANSPARENCY, DEFAULT_TARGET_TPS] <;>
    constructor <;>
    · try constructor
      all_goals
        first
        | (split_ifs <;> simp_all)
        | simp_all

/-- C5: `HighlightTable.resolve` applies `reverse` by swapping foreground
and background before any other processing and substitutes id-0 defaults
for unset colors: `define(5, {reverse, fg:A, bg:B})` then `resolve(5)`
yields foreground `B` and background `A`, and `resolve(0)` after `clear()`
yields the built-in default colors. -/
theorem highlight_resolve_reverse_and_defaults (t : HighlightTable) (A B : Nat) :
    ((t.define 5 ⟨some A, some B, none, false, false, false, false, true⟩).resolve 5).foreground = B ∧
    ((t.define 5 ⟨some A, some B, none, false, false, false, false, true⟩).resolve 5).background = A ∧
    HighlightTable.clear.resolve 0 = ⟨BUILTIN_FG, BUILTIN_BG, BUILTIN_FG⟩ := by
  refine ⟨?_, ?_, rfl⟩ <;>
    simp [HighlightTable.resolve, HighlightTable.define]

/-- C1 (code bug): `rgl_last_buffer_size` is read by `RGL_Render` but
never assigned anywhere in the sources, so it keeps its zero initial
value; hence two consecutive frames of six vertices each both take the
`BufferData` reallocation branch, although the second frame's vertex count
equals the previous frame's — the claimed "reallocate iff the size
changed" policy does not hold. -/
theorem rgl_render_always_reallocates_nonempty_frames :
    (∀ last_buffer_size vertex_count,
      (RGL_Render last_buffer_size vertex_count).2 = last_buffer_size) ∧
    RGL_RenderFrames rgl_initial_buffer_size [6, 6] = [true, true] := by
  constructor
  · intro last n
    unfold RGL_Render
    split <;> rfl
  · rfl

/-- C8: after two `setTarget` calls within one animation window, the
cursor's visual position always stays inside the convex hull of the
original previous cell, the first target and the second target — both
while animating toward the first target and at every time after the
second `setTarget`. -/
theorem cursor_setTarget_twice_no_overshoot
    (p0 t1 t2 : ℚ × ℚ) (L dt1 dt2 : ℚ) (hL : 0 < L) (h1 : 0 ≤ dt1) (h2 : 0 ≤ dt2) :
    inTriangle p0 t1 t2
      ((((CursorAnim.atRest p0 L).setTarget t1).advance dt1).visualPosition) ∧
    inTriangle p0 t1 t2
      ((((((CursorAnim.atRest p0 L).setTarget t1).advance dt1).setTarget t2).advance
        dt2).visualPosition) := by
  have ha0 : 0 ≤ min 1 (0 + dt1 / L) := le_min (by norm_num) (by positivity)
  have ha1 : min 1 (0 + dt1 / L) ≤ 1 := min_le_left _ _
  have hb0 : 0 ≤ min 1 (0 + dt2 / L) := le_min (by norm_num) (by positivity)
  have hb1 : min 1 (0 + dt2 / L) ≤ 1 := min_le_left _ _
  set a := min 1 (0 + dt1 / L) with hadef
  set b := min 1 (0 + dt2 / L) with hbdef
  simp only [CursorAnim.atRest, CursorAnim.setTarget, CursorAnim.advance,
    CursorAnim.visualPosition, lerpf32, inTriangle]
  constructor
  · exact ⟨1 - a, a, 0, by linarith, ha0, le_refl 0, by ring, by ring, by ring⟩
  · refine ⟨(1 - b) * (1 - a), (1 - b) * a, b, ?_, ?_, hb0, by ring, by ring, by ring⟩
    · exact mul_nonneg (by linarith) (by linarith)
    · exact mul_nonneg (by linarith) ha0

/-- Witness for C8 at concrete positions and times. -/
theorem cursor_setTarget_twice_no_overshoot_witness :
    ((0:ℚ) < 2 ∧ (0:ℚ) ≤ 1 ∧ (0:ℚ) ≤ 1) ∧
    inTriangle (0, 0) (1, 0) (0, 1)
      ((((((CursorAnim.atRest (0, 0) 2).setTarget (1, 0)).advance 1).setTarget
        (0, 1)).advance 1).visualPosition) :=
  ⟨by norm_num,
   (cursor_setTarget_twice_no_overshoot (0, 0) (1, 0) (0, 1) 2 1 1
     (by norm_num) (by norm_num) (by norm_num)).2⟩

/-- The two axis-aligned right triangles `(X,Y),(X,Y+H),(X+W,Y+H)` and
`(X+W,Y+H),(X+W,Y),(X,Y)` together cover exactly the rectangle
`[X, X+W] × [Y, Y+H]` when the extents are nonnegative. -/
theorem rect_triangles_cover (X Y W H : ℚ) (hw : 0 ≤ W) (hh : 0 ≤ H) (px py : ℚ) :
    (inTriangle (X, Y) (X, Y + H) (X + W, Y + H) (px, py) ∨
     inTriangle (X + W, Y + H) (X + W, Y) (X, Y) (px, py)) ↔
    (X ≤ px ∧ px ≤ X + W ∧ Y ≤ py ∧ py ≤ Y + H) := by
  simp only [inTriangle]
  constructor
  · rintro (⟨α, β, γ, hα, hβ, hγ, hsum, hx, hy⟩ | ⟨α, β, γ, hα, hβ, hγ, hsum, hx, hy⟩)
    · have e1 : px - X = γ * W := by linear_combination hx + X * hsum
      have e2 : py - Y = (β + γ) * H := by linear_combination hy + Y * hsum
      refine ⟨?_, ?_, ?_, ?_⟩
      · linarith [mul_nonneg hγ hw]
      · linarith [mul_nonneg (by linarith : (0:ℚ) ≤ 1 - γ) hw]
      · linarith [mul_nonneg (add_nonneg hβ hγ) hh]
      · linarith [mul_nonneg (by linarith : (0:ℚ) ≤ 1 - (β + γ)) hh]
    · have e1 : px - X = (α + β) * W := by linear_combination hx + X * hsum
      have e2 : py - Y = α * H := by linear_combination hy + Y * hsum
      refine ⟨?_, ?_, ?_, ?_⟩
      · linarith [mul_nonneg (add_nonneg hα hβ) hw]
      · linarith [mul_nonneg (by linarith : (0:ℚ) ≤ 1 - (α + β)) hw]
      · linarith [mul_nonneg hα hh]
      · linarith [mul_nonneg (by linarith : (0:ℚ) ≤ 1 - α) hh]
  · rintro ⟨h1, h2, h3, h4⟩
    rcases eq_or_lt_of_le hw with hW | hW
    · -- degenerate width: the rectangle is the segment x = X
      have hpx : px = X := by linarith
      rcases eq_or_lt_of_le hh with hH | hH
      · have hpy : py = Y := by linarith
        exact Or.inl ⟨1, 0, 0, by norm_num, le_refl 0, le_refl 0, by norm_num,
          by rw [hpx]; ring, by rw [hpy]; ring⟩
      · refine Or.inl ⟨(H - (py - Y)) / H, (py - Y) / H, 0,
          div_nonneg (by linarith) hH.le, div_nonneg (by linarith) hH.le,
          le_refl 0, by field_simp, ?_, ?_⟩
        · rw [hpx]; field_simp; ring
        · field_simp; ring
    · rcases eq_or_lt_of_le hh with hH | hH
      · -- degenerate height: the rectangle is the segment y = Y
        have hpy : py = Y := by linarith
        refine Or.inl ⟨(W - (px - X)) / W, 0, (px - X) / W,
          div_nonneg (by linarith) hW.le, le_refl 0,
          div_nonneg (by linarith) hW.le, by field_simp, ?_, ?_⟩
        · field_simp; ring
        · rw [hpy, ← hH]; field_simp; ring
      · -- both extents positive: split along the diagonal
        by_cases hd : (px - X) * H ≤ (py - Y) * W
        · have hγ : 0 ≤ (px - X) / W := div_nonneg (by linarith) hW.le
          have hβ : (px - X) / W ≤ (py - Y) / H := by
            rw [div_le_div_iff₀ hW hH]; exact hd
          have hα : (py - Y) / H ≤ 1 := by rw [div_le_one hH]; linarith
          refine Or.inl ⟨1 - (py - Y) / H, (py - Y) / H - (px - X) / W, (px - X) / W,
            by linarith, by linarith, hγ, by ring, ?_, ?_⟩
          · field_simp; ring
          · field_simp; ring
        · push_neg at hd
          have hα : 0 ≤ (py - Y) / H := div_nonneg (by linarith) hH.le
          have hβ : (py - Y) / H ≤ (px - X) / W := by
            rw [div_le_div_iff₀ hH hW]; linarith
          have hγ : (px - X) / W ≤ 1 := by rw [div_le_one hW]; linarith
          refine Or.inr ⟨(py - Y) / H, (px - X) / W - (py - Y) / H, 1 - (px - X) / W,
            hα, by linarith, by linarith, by ring, ?_, ?_⟩
          · field_simp; ring
          · field_simp; ring

/-- C6: `triangulate_rect` emits exactly the six vertices
`(X,Y),(X,Y+H),(X+W,Y+H),(X+W,Y+H),(X+W,Y),(X,Y)` — two triangles for a
non-indexed triangle-list draw — and those two triangles together cover
exactly the quad's rectangle. -/
theorem triangulate_rect_two_triangles_cover (r : SdlRect)
    (hw : 0 ≤ r.w) (hh : 0 ≤ r.h) :
    triangulate_rect r =
      [ ⟨r.x, r.y⟩, ⟨r.x, r.y + r.h⟩, ⟨r.x + r.w, r.y + r.h⟩,
        ⟨r.x + r.w, r.y + r.h⟩, ⟨r.x + r.w, r.y⟩, ⟨r.x, r.y⟩ ] ∧
    ∀ p : ℚ × ℚ,
      (inTriangle (IVec2.toQ ⟨r.x, r.y⟩) (IVec2.toQ ⟨r.x, r.y + r.h⟩)
         (IVec2.toQ ⟨r.x + r.w, r.y + r.h⟩) p ∨
       inTriangle (IVec2.toQ ⟨r.x + r.w, r.y + r.h⟩) (IVec2.toQ ⟨r.x + r.w, r.y⟩)
         (IVec2.toQ ⟨r.x, r.y⟩) p) ↔ inRect r p := by
  refine ⟨rfl, fun p => ?_⟩
  have hwq : (0:ℚ) ≤ (r.w : ℚ) := by exact_mod_cast hw
  have hhq : (0:ℚ) ≤ (r.h : ℚ) := by exact_mod_cast hh
  have := rect_triangles_cover (r.x : ℚ) (r.y : ℚ) (r.w : ℚ) (r.h : ℚ) hwq hhq p.1 p.2
  simpa [IVec2.toQ, inRect, Int.cast_add] using this

/-- Witness for C6 at a concrete rectangle. -/
theorem triangulate_rect_two_triangles_cover_witness :
    ((0:Int) ≤ 4 ∧ (0:Int) ≤ 5) ∧
    triangulate_rect ⟨2, 3, 4, 5⟩ =
      [ ⟨2, 3⟩, ⟨2, 8⟩, ⟨6, 8⟩, ⟨6, 8⟩, ⟨6, 3⟩, ⟨2, 3⟩ ] :=
  ⟨by decide, (triangulate_rect_two_triangles_cover ⟨2, 3, 4, 5⟩ (by decide) (by decide)).1⟩

/-! ### Row-major index arithmetic and write lemmas -/

theorem rowmajor_lt {rows cols r c : Nat} (hr : r < rows) (hc : c < cols) :
    r * cols + c < rows * cols :=
  calc r * cols + c < r * cols + cols := by omega
    _ = (r + 1) * cols := by ring
    _ ≤ rows * cols := Nat.mul_le_mul_right _ (by omega)

theorem rowmajor_inj {cols r c row col : Nat} (hc : c < cols) (hcol : col < cols) :
    r * cols + c = row * cols + col ↔ (r = row ∧ c = col) := by
  constructor
  · intro h
    have hcc : c = col := by
      have h1 : (r * cols + c) % cols = (row * cols + col) % cols := by rw [h]
      rwa [Nat.mul_add_mod_of_lt hc, Nat.mul_add_mod_of_lt hcol] at h1
    subst hcc
    have h2 : r * cols = row * cols := by omega
    exact ⟨Nat.eq_of_mul_eq_mul_right (by omega) h2, rfl⟩
  · rintro ⟨rfl, rfl⟩; rfl

theorem Grid.rows_setCell (g : Grid) (r c : Nat) (v : Cell) :
    (g.setCell r c v).rows = g.rows := rfl

theorem Grid.cols_setCell (g : Grid) (r c : Nat) (v : Cell) :
    (g.setCell r c v).cols = g.cols := rfl

theorem Grid.length_setCell (g : Grid) (r c : Nat) (v : Cell) :
    (g.setCell r c v).cells.length = g.cells.length := by
  simp [Grid.setCell]

theorem Grid.cellAt_setCell (g : Grid) (hwf : g.WellFormed) (row col : Nat) (v : Cell)
    (hrow : row < g.rows) (hcol : col < g.cols) (r c : Nat) (hc : c < g.cols) :
    (g.setCell row col v).cellAt r c =
      if r = row ∧ c = col then v else g.cellAt r c := by
  unfold Grid.WellFormed at hwf
  by_cases h : r = row ∧ c = col
  · obtain ⟨rfl, rfl⟩ := h
    rw [if_pos ⟨rfl, rfl⟩]
    have hlt : r * g.cols + c < g.cells.length := hwf ▸ rowmajor_lt hrow hc
    simp [Grid.setCell, Grid.cellAt, List.getD_eq_getElem?_getD,
      List.getElem?_set_eq_of_lt _ hlt]
  · rw [if_neg h]
    have hne : row * g.cols + col ≠ r * g.cols + c := fun hi =>
      h ⟨((rowmajor_inj hcol hc).mp hi).1.symm, ((rowmajor_inj hcol hc).mp hi).2.symm⟩
    simp [Grid.setCell, Grid.cellAt, List.getD_eq_getElem?_getD,
      List.getElem?_set_ne hne]

theorem Grid.dirty_setCell (g : Grid) (row col : Nat) (v : Cell) (r : Nat) :
    (g.setCell row col v).dirty r = if r = row then true else g.dirty r := rfl

theorem Grid.applyWrites_dims (g : Grid) (ws : List Write) :
    (g.applyWrites ws).rows = g.rows ∧ (g.applyWrites ws).cols = g.cols ∧
    (g.applyWrites ws).cells.length = g.cells.length := by
  induction ws generalizing g with
  | nil => exact ⟨rfl, rfl, rfl⟩
  | cons w rest ih =>
    have h := ih (g.setCell w.row w.col w.val)
    simpa [Grid.applyWrites, Grid.length_setCell] using h

theorem runWrites_mem {cols row : Nat} :
    ∀ {col : Nat} {vs : List Cell} {w : Write},
      w ∈ runWrites cols row col vs → w.row = row ∧ col ≤ w.col ∧ w.col < cols := by
  intro col vs
  induction vs generalizing col with
  | nil => intro w hw; simp [runWrites] at hw
  | cons v rest ih =>
    intro w hw
    unfold runWrites at hw
    split at hw
    · rcases List.mem_cons.mp hw with h | h
      · subst h; exact ⟨rfl, le_refl _, by assumption⟩
      · have := ih h
        exact ⟨this.1, by omega, this.2.2⟩
    · simp at hw

theorem gridLineWrites_mem {rows cols row startCol : Nat}
    {entries : List GridLineEntry} {w : Write}
    (hw : w ∈ gridLineWrites rows cols row startCol entries) :
    w.row < rows ∧ w.col < cols := by
  unfold gridLineWrites at hw
  split at hw
  · have h := runWrites_mem hw
    exact ⟨h.1 ▸ (by assumption), h.2.2⟩
  · simp at hw

/-- C4: a `grid-line` event never writes at a column index at or beyond
the grid's column count — every performed write has `col < cols` (and an
in-range row) even for malformed events — and applying the event
preserves the grid's structural invariants: `rows`, `cols` and the number
of cells are unchanged. -/
theorem grid_line_never_out_of_bounds (g : Grid) (row startCol : Nat)
    (entries : List GridLineEntry) :
    (∀ w ∈ gridLineWrites g.rows g.cols row startCol entries,
       w.col < g.cols ∧ w.row < g.rows) ∧
    (g.applyGridLine row startCol entries).rows = g.rows ∧
    (g.applyGridLine row startCol entries).cols = g.cols ∧
    (g.applyGridLine row startCol entries).cells.length = g.cells.length := by
  obtain ⟨d1, d2, d3⟩ :=
    Grid.applyWrites_dims g (gridLineWrites g.rows g.cols row startCol entries)
  exact ⟨fun w hw => ⟨(gridLineWrites_mem hw).2, (gridLineWrites_mem hw).1⟩, d1, d2, d3⟩

theorem foldl_lastWrite_init (r c : Nat) (ws : List Write) :
    ∀ init : Option Cell,
      ws.foldl (fun acc w => if w.row = r ∧ w.col = c then some w.val else acc) init =
        ((lastWriteTo ws r c).map some).getD init := by
  induction ws with
  | nil => intro init; rfl
  | cons w rest ih =>
    intro init
    have hcons : lastWriteTo (w :: rest) r c =
        ((lastWriteTo rest r c).map some).getD
          (if w.row = r ∧ w.col = c then some w.val else none) :=
      ih (if w.row = r ∧ w.col = c then some w.val else none)
    rw [List.foldl_cons, ih, hcons]
    cases lastWriteTo rest r c with
    | some u => rfl
    | none =>
      by_cases hp : w.row = r ∧ w.col = c
      · simp only [if_pos hp]; rfl
      · simp only [if_neg hp]; rfl

theorem lastWriteTo_cons (w : Write) (rest : List Write) (r c : Nat) :
    lastWriteTo (w :: rest) r c =
      ((lastWriteTo rest r c).map some).getD
        (if w.row = r ∧ w.col = c then some w.val else none) :=
  foldl_lastWrite_init r c rest (if w.row = r ∧ w.col = c then some w.val else none)

theorem Grid.setCell_wellFormed (g : Grid) (hwf : g.WellFormed)
    (row col : Nat) (v : Cell) : (g.setCell row col v).WellFormed := by
  unfold Grid.WellFormed at *
  simpa [Grid.setCell] using hwf

theorem Grid.applyWrites_cellAt (g : Grid) (ws : List Write) (hwf : g.WellFormed)
    (r c : Nat) (hr : r < g.rows) (hc : c < g.cols)
    (hws : ∀ w ∈ ws, w.row < g.rows ∧ w.col < g.cols) :
    (g.applyWrites ws).cellAt r c = (lastWriteTo ws r c).getD (g.cellAt r c) := by
  induction ws generalizing g with
  | nil => rfl
  | cons w rest ih =>
    have hw := hws w (List.mem_cons_self w rest)
    have step := ih (g.setCell w.row w.col w.val)
      (g.setCell_wellFormed hwf w.row w.col w.val) hr hc
      (fun w' hw' => hws w' (List.mem_cons_of_mem w hw'))
    rw [Grid.applyWrites, step,
      Grid.cellAt_setCell g hwf w.row w.col w.val hw.1 hw.2 r c hc,
      lastWriteTo_cons]
    cases lastWriteTo rest r c with
    | some u => rfl
    | none =>
      by_cases hp : w.row = r ∧ w.col = c
      · simp only [if_pos hp, if_pos (And.intro hp.1.symm hp.2.symm)]; rfl
      · simp only [if_neg hp, if_neg (fun q : r = w.row ∧ c = w.col =>
          hp ⟨q.1.symm, q.2.symm⟩)]; rfl

theorem Grid.applyWrites_dirty_mono (g : Grid) (ws : List Write) (r : Nat)
    (h : g.dirty r = true) : (g.applyWrites ws).dirty r = true := by
  induction ws generalizing g with
  | nil => exact h
  | cons w rest ih =>
    apply ih
    rw [Grid.dirty_setCell]
    split
    · rfl
    · exact h

theorem Grid.applyWrites_dirty_of_mem (g : Grid) (ws : List Write) (r : Nat)
    (h : ∃ w ∈ ws, w.row = r) : (g.applyWrites ws).dirty r = true := by
  induction ws generalizing g with
  | nil => obtain ⟨w, hw, _⟩ := h; simp at hw
  | cons w rest ih =>
    obtain ⟨w', hw', hr'⟩ := h
    rcases List.mem_cons.mp hw' with rfl | hmem
    · show ((g.setCell w'.row w'.col w'.val).applyWrites rest).dirty r = true
      apply Grid.applyWrites_dirty_mono
      rw [Grid.dirty_setCell, if_pos hr'.symm]
    · exact ih _ ⟨w', hmem, hr'⟩

theorem Grid.applyWrites_append (g : Grid) (ws1 ws2 : List Write) :
    g.applyWrites (ws1 ++ ws2) = (g.applyWrites ws1).applyWrites ws2 := by
  induction ws1 generalizing g with
  | nil => rfl
  | cons w rest ih => rw [List.cons_append, Grid.applyWrites, Grid.applyWrites, ih]

theorem Grid.applyGridLines_eq (g : Grid) (evs : List GridLineEvent) :
    g.applyGridLines evs = g.applyWrites (gridLinesWrites g.rows g.cols evs) := by
  induction evs generalizing g with
  | nil => rfl
  | cons ev rest ih =>
    rw [Grid.applyGridLines, gridLinesWrites, Grid.applyWrites_append]
    obtain ⟨d1, d2, _⟩ :=
      Grid.applyWrites_dims g (gridLineWrites g.rows g.cols ev.row ev.startCol ev.entries)
    have hgl : g.applyGridLine ev.row ev.startCol ev.entries =
        g.applyWrites (gridLineWrites g.rows g.cols ev.row ev.startCol ev.entries) := rfl
    rw [ih, hgl, d1, d2]

theorem gridLinesWrites_mem {rows cols : Nat} {evs : List GridLineEvent} {w : Write}
    (hw : w ∈ gridLinesWrites rows cols evs) : w.row < rows ∧ w.col < cols := by
  induction evs with
  | nil => simp [gridLinesWrites] at hw
  | cons ev rest ih =>
    rw [gridLinesWrites] at hw
    rcases List.mem_append.mp hw with h | h
    · exact gridLineWrites_mem h
    · exact ih h

/-- C3: after applying a sequence of in-bounds `grid-line` events, every
cell holds the value of the last write the sequence made to its position
(run-length expansion and highlight reuse included in the decoding), cells
never written keep their previous content, and every row that received at
least one write is marked dirty. -/
theorem grid_line_sequence_last_write_wins (g : Grid) (evs : List GridLineEvent)
    (hwf : g.WellFormed) (hin : ∀ ev ∈ evs, ev.InBounds g.rows g.cols)
    (r c : Nat) (hr : r < g.rows) (hc : c < g.cols) :
    (g.applyGridLines evs).cellAt r c =
      (lastWriteTo (gridLinesWrites g.rows g.cols evs) r c).getD (g.cellAt r c) ∧
    ((∃ w ∈ gridLinesWrites g.rows g.cols evs, w.row = r) →
      (g.applyGridLines evs).dirty r = true) := by
  rw [Grid.applyGridLines_eq]
  exact ⟨Grid.applyWrites_cellAt g _ hwf r c hr hc
           (fun w hw => gridLinesWrites_mem hw),
         Grid.applyWrites_dirty_of_mem g _ r⟩

/-! ### Scroll lemmas -/

theorem Grid.scroll_wellFormed (g : Grid) (top bot left right : Nat) (d : Int) :
    (g.scroll top bot left right d).WellFormed := by
  unfold Grid.WellFormed
  simp [Grid.scroll]

theorem Grid.cellAt_scroll (g : Grid) (top bot left right : Nat) (d : Int)
    (r c : Nat) (hr : r < g.rows) (hc : c < g.cols) :
    (g.scroll top bot left right d).cellAt r c =
      scrolledCell top bot left right d g r c := by
  have hcols : 0 < g.cols := by omega
  have hidx : r * g.cols + c < g.rows * g.cols := rowmajor_lt hr hc
  have hmod : (r * g.cols + c) % g.cols = c := Nat.mul_add_mod_of_lt hc
  have hdiv : (r * g.cols + c) / g.cols = r := by
    rw [Nat.mul_comm r g.cols, Nat.mul_add_div hcols, Nat.div_eq_of_lt hc,
      Nat.add_zero]
  show ((List.range (g.rows * g.cols)).map
      (fun i => scrolledCell top bot left right d g (i / g.cols) (i % g.cols))).getD
      (r * g.cols + c) Cell.empty = scrolledCell top bot left right d g r c
  rw [List.getD_eq_getElem?_getD, List.getElem?_map, List.getElem?_range hidx]
  simp only [Option.map_some', Option.getD_some, hdiv, hmod]

/-- C2: a `grid-scroll` by `d` followed by a `grid-scroll` by `-d` over
the same region restores the original content of every in-region cell
whose row's source and destination stayed inside the region for both
scrolls; rows the first scroll vacated are default-highlighted empty
cells right after it, as are rows the second scroll vacated after it. -/
theorem grid_scroll_roundtrip (g : Grid) (top bot left right : Nat) (d : Int)
    (hwf : g.WellFormed) (hbot : bot ≤ g.rows) (hright : right ≤ g.cols)
    (r c : Nat) (hr : top ≤ r ∧ r < bot) (hc : left ≤ c ∧ c < right) :
    (((top : Int) ≤ (r : Int) - d ∧ (r : Int) - d < (bot : Int)) →
       ((g.scroll top bot left right d).scroll top bot left right (-d)).cellAt r c =
         g.cellAt r c) ∧
    (¬((top : Int) ≤ (r : Int) + d ∧ (r : Int) + d < (bot : Int)) →
       (g.scroll top bot left right d).cellAt r c = Cell.empty) ∧
    (¬((top : Int) ≤ (r : Int) - d ∧ (r : Int) - d < (bot : Int)) →
       ((g.scroll top bot left right d).scroll top bot left right (-d)).cellAt r c =
         Cell.empty) := by
  have hrrow : r < g.rows := by omega
  have hccol : c < g.cols := by omega
  have hreg : top ≤ r ∧ r < bot ∧ left ≤ c ∧ c < right := ⟨hr.1, hr.2, hc.1, hc.2⟩
  refine ⟨?_, ?_, ?_⟩
  · intro ha
    rw [Grid.cellAt_scroll (g.scroll top bot left right d) top bot left right (-d)
      r c hrrow hccol]
    simp only [scrolledCell]
    have hsrc : (top : Int) ≤ (r : Int) + -d ∧ (r : Int) + -d < (bot : Int) := by
      constructor <;> omega
    rw [if_pos hreg, if_pos hsrc]
    have hr2 : (((r : Int) + -d).toNat : Int) = (r : Int) - d := by omega
    have hrow2 : ((r : Int) + -d).toNat < g.rows := by omega
    rw [Grid.cellAt_scroll g top bot left right d _ c hrow2 hccol]
    simp only [scrolledCell]
    have hreg2 : top ≤ ((r : Int) + -d).toNat ∧ ((r : Int) + -d).toNat < bot ∧
        left ≤ c ∧ c < right := ⟨by omega, by omega, hc.1, hc.2⟩
    have hsrc2 : (top : Int) ≤ (((r : Int) + -d).toNat : Int) + d ∧
        (((r : Int) + -d).toNat : Int) + d < (bot : Int) := by constructor <;> omega
    rw [if_pos hreg2, if_pos hsrc2]
    have hback : ((((r : Int) + -d).toNat : Int) + d).toNat = r := by omega
    rw [hback]
  · intro hb
    rw [Grid.cellAt_scroll g top bot left right d r c hrrow hccol]
    simp only [scrolledCell]
    have hsrc : ¬((top : Int) ≤ (r : Int) + d ∧ (r : Int) + d < (bot : Int)) := hb
    rw [if_pos hreg, if_neg hsrc]
  · intro hcnd
    rw [Grid.cellAt_scroll (g.scroll top bot left right d) top bot left right (-d)
      r c hrrow hccol]
    simp only [scrolledCell]
    have hsrc : ¬((top : Int) ≤ (r : Int) + -d ∧ (r : Int) + -d < (bot : Int)) := by
      intro hcon
      exact hcnd ⟨by omega, by omega⟩
    rw [if_pos hreg, if_neg hsrc]

/-! ### Producer/tick interleaving lemmas -/

theorem applyBatches_append (g : Grid) (l1 l2 : List (List UIEvent)) :
    applyBatches g (l1 ++ l2) = applyBatches (applyBatches g l1) l2 := by
  simp [applyBatches]

/-- C7: under any interleaving of transport deliveries and ticks, the
pending queue is exactly the un-applied suffix of the batches in FIFO
arrival order, the applied grid state is the fold of the applied prefix,
and every grid snapshot a render pass observed is the fold of whole
batches forming a prefix of the arrival order — so renders see every
batch drained before their tick fully applied and never a partially
applied batch. -/
theorem render_reads_whole_batches_fifo (g0 : Grid) (s : SysState)
    (hs : SysReachable g0 s) :
    (∃ applied, applied ++ s.queue = s.produced ∧ s.grid = applyBatches g0 applied) ∧
    (∀ gr ∈ s.renders, ∃ applied rest, applied ++ rest = s.produced ∧
       gr = applyBatches g0 applied) := by
  induction hs with
  | init =>
    refine ⟨⟨[], rfl, rfl⟩, ?_⟩
    intro gr hgr
    simp at hgr
  | @step s1 s2 hprev hstep ih =>
    obtain ⟨⟨applied, happ, hgrid⟩, hrend⟩ := ih
    cases hstep with
    | produce b =>
      refine ⟨⟨applied, ?_, hgrid⟩, ?_⟩
      · show applied ++ (s1.queue ++ [b]) = s1.produced ++ [b]
        rw [← List.append_assoc, happ]
      · intro gr hgr
        obtain ⟨a2, rest, hsplit, hgr2⟩ := hrend gr hgr
        refine ⟨a2, rest ++ [b], ?_, hgr2⟩
        show a2 ++ (rest ++ [b]) = s1.produced ++ [b]
        rw [← List.append_assoc, hsplit]
    | tick =>
      have hgrid' : applyBatches s1.grid s1.queue = applyBatches g0 s1.produced := by
        rw [hgrid, ← applyBatches_append, happ]
      refine ⟨⟨s1.produced, by simp [tickStep], hgrid'⟩, ?_⟩
      intro gr hgr
      have hgr' : gr ∈ s1.renders ++ [applyBatches s1.grid s1.queue] := hgr
      rcases List.mem_append.mp hgr' with h | h
      · obtain ⟨a2, rest, hsplit, hgr2⟩ := hrend gr h
        exact ⟨a2, rest, hsplit, hgr2⟩
      · have hgr2 : gr = applyBatches s1.grid s1.queue := by simpa using h
        exact ⟨s1.produced, [], by simp [tickStep], hgr2.trans hgrid'⟩

/-- Witness for C7 on a concrete two-step trace: one delivered batch,
then one tick. -/
theorem render_reads_whole_batches_fifo_witness :
    SysReachable sampleGrid (tickStep (produceStep sys0 sampleBatch)) ∧
    ((∃ applied,
        applied ++ (tickStep (produceStep sys0 sampleBatch)).queue =
          (tickStep (produceStep sys0 sampleBatch)).produced ∧
        (tickStep (produceStep sys0 sampleBatch)).grid =
          applyBatches sampleGrid applied) ∧
     (∀ gr ∈ (tickStep (produceStep sys0 sampleBatch)).renders,
        ∃ applied rest,
          applied ++ rest = (tickStep (produceStep sys0 sampleBatch)).produced ∧
          gr = applyBatches sampleGrid applied)) :=
  ⟨SysReachable.step
     (SysReachable.step SysReachable.init (SysStep.produce sys0 sampleBatch))
     (SysStep.tick (produceStep sys0 sampleBatch)),
   render_reads_whole_batches_fifo sampleGrid (tickStep (produceStep sys0 sampleBatch))
     (SysReachable.step
       (SysReachable.step SysReachable.init (SysStep.produce sys0 sampleBatch))
       (SysStep.tick (produceStep sys0 sampleBatch)))⟩

/-- Witness for C3 on a concrete grid and event sequence. -/
theorem grid_line_sequence_last_write_wins_witness :
    (sampleGrid.WellFormed ∧
     (∀ ev ∈ [gridLineSampleEvent], ev.InBounds sampleGrid.rows sampleGrid.cols) ∧
     1 < sampleGrid.rows ∧ 1 < sampleGrid.cols) ∧
    ((sampleGrid.applyGridLines [gridLineSampleEvent]).cellAt 1 1 =
       (lastWriteTo
         (gridLinesWrites sampleGrid.rows sampleGrid.cols [gridLineSampleEvent]) 1 1).getD
         (sampleGrid.cellAt 1 1) ∧
     ((∃ w ∈ gridLinesWrites sampleGrid.rows sampleGrid.cols [gridLineSampleEvent],
         w.row = 1) →
       (sampleGrid.applyGridLines [gridLineSampleEvent]).dirty 1 = true)) :=
  ⟨⟨by show sampleGrid.cells.length = sampleGrid.rows * sampleGrid.cols; decide,
    by intro ev hev
       rw [List.mem_singleton] at hev
       subst hev
       exact ⟨by decide, by decide⟩,
    by decide, by decide⟩,
   grid_line_sequence_last_write_wins sampleGrid [gridLineSampleEvent]
     (by show sampleGrid.cells.length = sampleGrid.rows * sampleGrid.cols; decide)
     (by intro ev hev
         rw [List.mem_singleton] at hev
         subst hev
         exact ⟨by decide, by decide⟩)
     1 1 (by decide) (by decide)⟩

/-- Witness for C2 on a concrete grid and scroll region. -/
theorem grid_scroll_roundtrip_witness :
    (sampleGrid.WellFormed ∧ 4 ≤ sampleGrid.rows ∧ 3 ≤ sampleGrid.cols ∧
     (0 ≤ 2 ∧ 2 < 4) ∧ (0 ≤ 1 ∧ 1 < 3)) ∧
    ((sampleGrid.scroll 0 4 0 3 1).scroll 0 4 0 3 (-1)).cellAt 2 1 =
      sampleGrid.cellAt 2 1 :=
  ⟨⟨by show sampleGrid.cells.length = sampleGrid.rows * sampleGrid.cols; decide,
    by decide, by decide, by decide, by decide⟩,
   (grid_scroll_roundtrip sampleGrid 0 4 0 3 1
     (by show sampleGrid.cells.length = sampleGrid.rows * sampleGrid.cols; decide)
     (by decide) (by decide) 2 1 (by decide) (by decide)).1 (by decide)⟩

end Neoray
